import Mathlib

/-
Shallow embedding of charzapper.py (the CharZapper snippet engine).

The engine parts relevant to the resolution pipeline are embedded here:
`build_dictionary` (index construction), `update_text` (the four-strategy
match resolver), cursor cycling (the Tab/Left/Right handlers of `run`), and
`submit`.

Modelling conventions:
- Python strings are `List Char`; `str.lower`/`str.upper` are per-character
  host case maps (`Char.toLower`/`Char.toUpper`).
- Python dicts are insertion-ordered association lists (`alFind`, `alInsert`);
  Python sets are insertion-ordered duplicate-free lists (`setAdd`).
- Python exceptions that escape the engine (`IndexError` in `submit`, the
  failed `assert name` in `build_dictionary`) are `Except` errors.
-/

def MAX_MATCHES : Nat := 10

/-- Python `str.strip()`: drop leading and trailing whitespace. -/
def pyStrip (s : List Char) : List Char :=
  ((s.dropWhile Char.isWhitespace).reverse.dropWhile Char.isWhitespace).reverse

/-- Python `str.lower()` (per-character host case mapping). -/
def pyLower (s : List Char) : List Char := s.map Char.toLower

/-- Python `str.upper()`. -/
def pyUpper (s : List Char) : List Char := s.map Char.toUpper

/-- A cased character (host fragment of Python's notion). -/
def isCased (c : Char) : Bool := c.isUpper || c.isLower

/-- Python `str.islower()`: at least one cased character and no uppercase one. -/
def pyIslower (s : List Char) : Bool :=
  s.any isCased && s.all (fun c => !c.isUpper)

/-- `self.input_text[0].isupper()`; total here, and only read by `update_text`
after the blank-input guard (see the safety claim). -/
def leadingUpper : List Char → Bool
  | [] => false
  | c :: _ => c.isUpper

/-- Helper for Python `str.split()`: `cur` is the reversed current word. -/
def pySplitAux : List Char → List Char → List (List Char)
  | [], cur => if cur = [] then [] else [cur.reverse]
  | c :: rest, cur =>
    if c.isWhitespace then
      if cur = [] then pySplitAux rest [] else cur.reverse :: pySplitAux rest []
    else pySplitAux rest (c :: cur)

/-- Python `str.split()` with no argument: whitespace-separated words,
no empty words. -/
def pySplit (s : List Char) : List (List Char) := pySplitAux s []

/-- Python dict lookup `d[k]`, as an option (`KeyError` is `none`). -/
def alFind {α β : Type} [DecidableEq α] : List (α × β) → α → Option β
  | [], _ => none
  | (k, v) :: rest, key => if k = key then some v else alFind rest key

/-- Python dict assignment `d[k] = v`: update in place, or append a new key. -/
def alInsert {α β : Type} [DecidableEq α] : List (α × β) → α → β → List (α × β)
  | [], key, v => [(key, v)]
  | (k, w) :: rest, key, v =>
    if k = key then (key, v) :: rest else (k, w) :: alInsert rest key v

/-- `d[k] += 1` with the `KeyError` fallback `d[k] = 1`. -/
def alBump {α : Type} [DecidableEq α] (m : List (α × Nat)) (key : α) :
    List (α × Nat) :=
  match alFind m key with
  | some n => alInsert m key (n + 1)
  | none => m ++ [(key, 1)]

/-- Python `set.add` under the insertion-ordered list model of sets. -/
def setAdd {α : Type} [DecidableEq α] (s : List α) (a : α) : List α :=
  if a ∈ s then s else s ++ [a]

/-- `self.tags[key].add(w)` with the `KeyError` fallback `self.tags[key] =
set([w])`. -/
def mapSetAdd {α β : Type} [DecidableEq α] [DecidableEq β]
    (m : List (α × List β)) (key : α) (w : β) : List (α × List β) :=
  match alFind m key with
  | some s => alInsert m key (setAdd s w)
  | none => m ++ [(key, [w])]

/-- One parsed entry of snippets.yaml: required `name`; the `tags` and `chars`
sections already defaulted to empty by the `KeyError` fallbacks of
`build_dictionary`. -/
structure EntryData where
  name : List Char
  tags : List (List Char)
  chars : List Char
deriving DecidableEq

/-- The parsed dictionary: the yaml mapping in document order. -/
abbrev Dict := List (List Char × EntryData)

/-- The index state initialised at the top of `build_dictionary`. -/
structure SnippetIndex where
  tags : List (List Char × List (List Char))
  chars : List (Char × List (List Char))
  lowercase_names : List (List Char × List Char)
  names : List (List Char × List Char)
  lowercase_snippets : List (List Char × List Char)
deriving DecidableEq

def emptyIndex : SnippetIndex := ⟨[], [], [], [], []⟩

inductive BuildError where
  | invalidEntry
deriving DecidableEq

/-- The loop body of `build_dictionary` for one entry, in source order:
`lowercase_snippets`, the tag sets, the char sets, then `assert name` and the
two name maps.  (The second `assert lowercase_name` can only fire when the
first does, since lowering preserves emptiness.) -/
def buildStep (idx : SnippetIndex) (word : List Char) (data : EntryData) :
    Except BuildError SnippetIndex :=
  let lw := pyLower word
  let idx1 :=
    { idx with lowercase_snippets := alInsert idx.lowercase_snippets lw word }
  let idx2 :=
    { idx1 with tags := data.tags.foldl (fun m t => mapSetAdd m t lw) idx1.tags }
  let idx3 :=
    { idx2 with chars := data.chars.foldl (fun m c => mapSetAdd m c lw) idx2.chars }
  if data.name = [] then .error .invalidEntry
  else
    .ok { idx3 with
      names := alInsert idx3.names data.name lw,
      lowercase_names := alInsert idx3.lowercase_names (pyLower data.name) lw }

def buildFrom (idx : SnippetIndex) : Dict → Except BuildError SnippetIndex
  | [] => .ok idx
  | (word, data) :: rest =>
    match buildStep idx word data with
    | .error e => .error e
    | .ok idx2 => buildFrom idx2 rest

/-- `App.build_dictionary`. -/
def build_dictionary (d : Dict) : Except BuildError SnippetIndex :=
  buildFrom emptyIndex d

/-- The per-edit resolution state reset at the top of `update_text`. -/
structure ResState where
  matches_list : List (List Char)
  matches_shift : List (List Char)
  selection : Nat
  tag_matches : List (List Char × Nat)
  char_matches : List (List Char × Nat)
deriving DecidableEq

def clearedState : ResState := ⟨[], [], 0, [], []⟩

/-- One word of the tag-counting loop of `update_text`: bump every snippet of
`self.tags[word]`, with the `KeyError` fallback doing nothing. -/
def tagStep (idx : SnippetIndex) (m : List (List Char × Nat))
    (word : List Char) : List (List Char × Nat) :=
  match alFind idx.tags word with
  | some snippets => snippets.foldl (fun m2 s => alBump m2 s) m
  | none => m

/-- The tag-counting loop of `update_text`: one pass per word occurrence of
`input_text.split()`. -/
def tagCounts (idx : SnippetIndex) (words : List (List Char)) :
    List (List Char × Nat) :=
  words.foldl (tagStep idx) []

/-- One character of the character-counting loop: skip if already in
`used_chars`, otherwise bump every snippet of `self.chars[ch]`, marking the
character used inside the per-snippet loop (as the source does). -/
def charStep (idx : SnippetIndex) (acc : List Char × List (List Char × Nat))
    (ch : Char) : List Char × List (List Char × Nat) :=
  if ch ∈ acc.1 then acc
  else
    match alFind idx.chars ch with
    | some snippets =>
      snippets.foldl (fun a s => (setAdd a.1 ch, alBump a.2 s)) acc
    | none => acc

/-- The character-counting loops of `update_text`: `used_chars` persists
across all words. -/
def charCounts (idx : SnippetIndex) (words : List (List Char)) :
    List (List Char × Nat) :=
  (words.foldl (fun acc word => word.foldl (charStep idx) acc) ([], [])).2

/-- Stable insertion of a pair into a count-ascending list: the new pair goes
after every pair of count less than or equal to its own. -/
def insertAsc : List (List Char × Nat) → (List Char × Nat) →
    List (List Char × Nat)
  | [], p => [p]
  | q :: rest, p =>
    if q.2 ≤ p.2 then q :: insertAsc rest p else p :: q :: rest

/-- `sorted(d, key=d.get)`: Python's `sorted` is a stable ascending sort of
the keys by their counts; modelled as stable insertion sort over the
insertion-ordered key/count pairs. -/
def sortedPairs (m : List (List Char × Nat)) : List (List Char × Nat) :=
  m.foldl insertAsc []

/-- `sorted(d, key=d.get)[:MAX_MATCHES]`, projected to the keys. -/
def rankKeys (m : List (List Char × Nat)) : List (List Char) :=
  ((sortedPairs m).map (fun p => p.1)).take MAX_MATCHES

/-- The per-candidate case adaptation of the tag and char branches:
uppercase on leading-uppercase input, lowercase on all-lowercase input,
otherwise unchanged. -/
def adaptCase (hlu all : Bool) (m : List Char) : List Char :=
  if hlu then pyUpper m else if all then pyLower m else m

/-- `App.update_text`, the match resolver.  Clears the resolution state,
returns on blank (stripped) input, classifies the casing of the untrimmed
input, then runs the four-strategy cascade.  As in the source, the lookup key
is `self.input_text.lower()` — the lowered UNtrimmed text (line 190 of
charzapper.py rebinds `input_text` from `self.input_text`, discarding the
stripped value). -/
def update_text (idx : SnippetIndex) (raw : List Char) : ResState :=
  if pyStrip raw = [] then clearedState
  else
    let hlu := leadingUpper raw
    let all := pyIslower raw
    let input := pyLower raw
    match alFind idx.lowercase_snippets input with
    | some best =>
      { clearedState with
        matches_list := [if hlu then pyUpper best else best],
        matches_shift := [pyUpper best] }
    | none =>
      match alFind idx.lowercase_names input with
      | some best =>
        { clearedState with
          matches_list := [if hlu then pyUpper best else best],
          matches_shift := [pyUpper best] }
      | none =>
        let words := pySplit input
        let tm := tagCounts idx words
        if tm ≠ [] then
          let ms := rankKeys tm
          { clearedState with
            matches_list := ms.map (adaptCase hlu all),
            matches_shift := ms.map pyUpper,
            tag_matches := tm }
        else
          let cm := charCounts idx words
          if cm ≠ [] then
            let ms := rankKeys cm
            { clearedState with
              matches_list := ms.map (adaptCase hlu all),
              matches_shift := ms.map pyUpper,
              char_matches := cm }
          else clearedState

/-- Tab/Right handler: `(selection + 1) % len(matches)`, guarded by
`if self.matches`. -/
def cycle_forward (st : ResState) : ResState :=
  if st.matches_list = [] then st
  else { st with selection := (st.selection + 1) % st.matches_list.length }

/-- Shift-Tab/Left handler: Python `(selection - 1) % len(matches)` (Python's
`%` is nonnegative for a positive modulus), guarded by `if self.matches`. -/
def cycle_backward (st : ResState) : ResState :=
  if st.matches_list = [] then st
  else
    { st with selection :=
        (((st.selection : Int) - 1) % (st.matches_list.length : Int)).toNat }

inductive SubmitError where
  | indexError
deriving DecidableEq

/-- `App.submit`: reads `matches_shift[selection]` when shift is held, else
`matches[selection]`; indexing an empty list raises Python's `IndexError`,
modelled as an `Except` error. -/
def submit (st : ResState) (shift : Bool) : Except SubmitError (List Char) :=
  match (if shift then st.matches_shift else st.matches_list).get? st.selection with
  | some r => .ok r
  | none => .error .indexError

/-- String literal to character-list shorthand for concrete instances. -/
def lc (s : String) : List Char := s.toList

/-- A built index for a concrete dictionary (all concrete dictionaries used
below build without error). -/
def builtIndex (d : Dict) : SnippetIndex :=
  match build_dictionary d with
  | .ok idx => idx
  | .error _ => emptyIndex

/-- Concrete dictionary: one entry `pi` with name `pi`. -/
def piDict : Dict := [(lc "pi", ⟨lc "pi", [], []⟩)]

/-- Concrete dictionary: one entry with mixed-case canonical word `Pi`. -/
def piCapDict : Dict := [(lc "Pi", ⟨lc "Pi", [], []⟩)]

/-- Concrete dictionary: `a{tags:[x,y]}` and `b{tags:[x]}` (the spec's tag
aggregation example). -/
def abDict : Dict :=
  [(lc "a", ⟨lc "a", [lc "x", lc "y"], []⟩),
   (lc "b", ⟨lc "b", [lc "x"], []⟩)]

/-- Concrete dictionary: one entry `a` with `chars:[a]` (the spec's character
consumption example). -/
def aCharDict : Dict := [(lc "a", ⟨lc "a", [], ['a']⟩)]

/-- Concrete dictionary: one entry matched by all four strategies on input
`pi` (exact word, exact name, tag `pi`, chars `p`,`i`). -/
def allStratDict : Dict :=
  [(lc "pi", ⟨lc "pi", [lc "pi"], ['p', 'i']⟩)]

/-- The word `w` exists in the Entry Store of `d`: some entry's lowercased
canonical word is `w` (the form under which `build_dictionary` stores entries
in its tag/char sets and keys `lowercase_snippets`). -/
def InStore (d : Dict) (w : List Char) : Prop :=
  ∃ p ∈ d, pyLower p.1 = w

/-- Every tag set of the index is duplicate-free (always true of built
indexes, where the sets model Python sets). -/
abbrev TagSetsNodup (idx : SnippetIndex) : Prop :=
  ∀ p ∈ idx.tags, p.2.Nodup

/-- Every char set of the index is duplicate-free. -/
abbrev CharSetsNodup (idx : SnippetIndex) : Prop :=
  ∀ p ∈ idx.chars, p.2.Nodup

/-- The claim's tag-counting rule, stated from the spec's words for
comparison: one increment per DISTINCT word of the input per entry. -/
def specTagCountsDistinct (idx : SnippetIndex) (words : List (List Char)) :
    List (List Char × Nat) :=
  words.dedup.foldl (tagStep idx) []

/-- The claim's character-counting rule, stated from the spec's words: walk
the input characters with a single consumed set persisting across the whole
input; a character contributes to `w` at most once, at its first unconsumed
occurrence. -/
def specCharHits (idx : SnippetIndex) (w : List Char) :
    List Char → List Char → Nat
  | _, [] => 0
  | seen, ch :: rest =>
    if ch ∈ seen then specCharHits idx w seen rest
    else
      (if w ∈ (alFind idx.chars ch).getD [] then 1 else 0) +
        specCharHits idx w (ch :: seen) rest

/-- Option-level counter arithmetic: the value of a counter after `k` more
bumps, where an absent counter stays absent only for `k = 0`. -/
def bumpVal (o : Option Nat) (k : Nat) : Option Nat :=
  match o with
  | some n => some (n + k)
  | none => if k = 0 then none else some k

/-- Every word stored in any set of the map satisfies `P` (used to state
referential integrity of the built tag/char indexes). -/
def SoundSets {κ : Type} [DecidableEq κ] (P : List Char → Prop)
    (m : List (κ × List (List Char))) : Prop :=
  ∀ t s, alFind m t = some s → ∀ w ∈ s, P w

/-- A concrete three-candidate resolution state (for cursor examples). -/
def demoState (sel : Nat) : ResState :=
  ⟨[lc "a", lc "b", lc "c"], [lc "A", lc "B", lc "C"], sel, [], []⟩

/-! ### Association-list and set helper lemmas -/

theorem alFind_alInsert {α β : Type} [DecidableEq α] (m : List (α × β))
    (k : α) (v : β) (k' : α) :
    alFind (alInsert m k v) k' = if k = k' then some v else alFind m k' := by
  induction m with
  | nil => simp [alInsert, alFind]
  | cons p rest ih =>
    obtain ⟨k0, v0⟩ := p
    by_cases h0 : k0 = k
    · subst h0
      by_cases h1 : k0 = k' <;> simp [alInsert, alFind, h1]
    · by_cases h1 : k0 = k' <;> by_cases h2 : k = k'
      · exact absurd (h1.trans h2.symm) h0
      · subst h1
        simp only [alInsert, if_neg h0]
        simp [alFind, h2]
      · subst h2
        simp only [alInsert, if_neg h0]
        simp [alFind, h0, h1, ih]
      · simp only [alInsert, if_neg h0]
        simp [alFind, h1, h2, ih]

theorem alFind_append {α β : Type} [DecidableEq α] (m : List (α × β))
    (k : α) (v : β) (k' : α) :
    alFind (m ++ [(k, v)]) k' =
      match alFind m k' with
      | some x => some x
      | none => if k = k' then some v else none := by
  induction m with
  | nil => simp [alFind]
  | cons p rest ih =>
    obtain ⟨k0, v0⟩ := p
    by_cases h : k0 = k' <;> simp [alFind, h, ih]

theorem alFind_mem {α β : Type} [DecidableEq α] {m : List (α × β)} {k : α}
    {v : β} (h : alFind m k = some v) : (k, v) ∈ m := by
  induction m with
  | nil => simp [alFind] at h
  | cons p rest ih =>
    obtain ⟨k0, v0⟩ := p
    by_cases h0 : k0 = k
    · subst h0
      simp [alFind] at h
      subst h
      exact List.mem_cons_self _ _
    · simp [alFind, h0] at h
      exact List.mem_cons_of_mem _ (ih h)

theorem alFind_alBump {α : Type} [DecidableEq α] (m : List (α × Nat))
    (k k' : α) :
    alFind (alBump m k) k' =
      if k = k' then some ((alFind m k).getD 0 + 1) else alFind m k' := by
  unfold alBump
  cases h : alFind m k with
  | some n =>
    rw [alFind_alInsert]
    by_cases e : k = k' <;> simp [e, h]
  | none =>
    rw [alFind_append]
    by_cases e : k = k'
    · subst e
      simp [h]
    · cases h2 : alFind m k' <;> simp [e, h2]

theorem bumpVal_zero (o : Option Nat) : bumpVal o 0 = o := by
  cases o <;> simp [bumpVal]

theorem bumpVal_bumpVal (o : Option Nat) (a b : Nat) :
    bumpVal (bumpVal o a) b = bumpVal o (a + b) := by
  cases o with
  | some n => simp [bumpVal]; omega
  | none =>
    by_cases ha : a = 0
    · subst ha
      simp [bumpVal]
    · by_cases hb : b = 0 <;> simp [bumpVal, ha, hb]

theorem count_foldl_alBump {α : Type} [DecidableEq α] (snips : List α) :
    ∀ (m : List (α × Nat)) (w : α),
      alFind (snips.foldl (fun m2 s => alBump m2 s) m) w
        = bumpVal (alFind m w) (snips.countP (fun s => decide (s = w))) := by
  induction snips with
  | nil => intro m w; simp [bumpVal_zero]
  | cons s rest ih =>
    intro m w
    simp only [List.foldl_cons]
    rw [ih, alFind_alBump]
    by_cases e : s = w
    · subst e
      rw [if_pos rfl, List.countP_cons]
      cases hm : alFind m s with
      | some n => simp [bumpVal]; omega
      | none =>
        by_cases hr : rest.countP (fun x => decide (x = s)) = 0 <;>
          simp [bumpVal, hr]
        omega
    · rw [if_neg e, List.countP_cons]
      simp [e]

theorem setAdd_mem {α : Type} [DecidableEq α] (s : List α) (a b : α) :
    a ∈ setAdd s b ↔ a ∈ s ∨ a = b := by
  unfold setAdd
  split
  · constructor
    · exact Or.inl
    · rintro (h | rfl)
      · exact h
      · assumption
  · simp

theorem setAdd_idem {α : Type} [DecidableEq α] (s : List α) (b : α) :
    setAdd (setAdd s b) b = setAdd s b := by
  have : b ∈ setAdd s b := (setAdd_mem s b b).mpr (Or.inr rfl)
  unfold setAdd
  rw [if_pos]
  exact this

theorem innerCharFold (snips : List (List Char)) (ch : Char) :
    ∀ (used : List Char) (m : List (List Char × Nat)),
      snips.foldl (fun a s => (setAdd a.1 ch, alBump a.2 s)) (used, m)
        = (if snips = [] then used else setAdd used ch,
           snips.foldl (fun m2 s => alBump m2 s) m) := by
  induction snips with
  | nil => intro used m; simp
  | cons s rest ih =>
    intro used m
    simp only [List.foldl_cons]
    rw [ih]
    by_cases hr : rest = [] <;> simp [hr, setAdd_idem]

theorem nodup_countP_eq {α : Type} [DecidableEq α] {s : List α} (h : s.Nodup)
    (w : α) : s.countP (fun x => decide (x = w)) = if w ∈ s then 1 else 0 := by
  induction s with
  | nil => simp
  | cons a rest ih =>
    obtain ⟨ha, hrest⟩ := List.nodup_cons.mp h
    rw [List.countP_cons]
    by_cases haw : a = w
    · subst haw
      simp [ih hrest, ha]
    · have hwa : ¬w = a := fun hh => haw hh.symm
      simp [ih hrest, haw, hwa]

theorem tagCounts_loop {idx : SnippetIndex} (hnd : TagSetsNodup idx)
    (words : List (List Char)) :
    ∀ (m : List (List Char × Nat)) (w : List Char),
      alFind (words.foldl (tagStep idx) m) w
        = bumpVal (alFind m w)
            (words.countP (fun t => decide (w ∈ (alFind idx.tags t).getD []))) := by
  induction words with
  | nil => intro m w; simp [bumpVal_zero]
  | cons word rest ih =>
    intro m w
    simp only [List.foldl_cons, List.countP_cons]
    cases h : alFind idx.tags word with
    | none =>
      simp only [tagStep, h]
      rw [ih]
      simp [alFind, h]
    | some snips =>
      have hsnd : snips.Nodup := hnd (word, snips) (alFind_mem h)
      simp only [tagStep, h]
      rw [ih, count_foldl_alBump, bumpVal_bumpVal,
        nodup_countP_eq hsnd w]
      simp only [h, Option.getD_some]
      by_cases hw : w ∈ snips <;> simp [hw, Nat.add_comm]

theorem tagCounts_eq {idx : SnippetIndex} (hnd : TagSetsNodup idx)
    (words : List (List Char)) (w : List Char) :
    alFind (tagCounts idx words) w
      = (if words.countP (fun t => decide (w ∈ (alFind idx.tags t).getD [])) = 0
         then none
         else some
           (words.countP (fun t => decide (w ∈ (alFind idx.tags t).getD [])))) := by
  rw [tagCounts, tagCounts_loop hnd]
  simp [alFind, bumpVal]

theorem charFold_count {idx : SnippetIndex} (hnd : CharSetsNodup idx)
    (w : List Char) :
    ∀ (cs used seen : List Char) (m : List (List Char × Nat)),
      (∀ ch, w ∈ (alFind idx.chars ch).getD [] → (ch ∈ used ↔ ch ∈ seen)) →
      alFind ((cs.foldl (charStep idx) (used, m)).2) w
        = bumpVal (alFind m w) (specCharHits idx w seen cs) := by
  intro cs
  induction cs with
  | nil =>
    intro used seen m _
    simp [specCharHits, bumpVal_zero]
  | cons ch rest ih =>
    intro used seen m hinv
    simp only [List.foldl_cons]
    by_cases hu : ch ∈ used
    · have hstep : charStep idx (used, m) ch = (used, m) := by
        simp [charStep, hu]
      rw [hstep]
      by_cases hs : ch ∈ seen
      · simp only [specCharHits, if_pos hs]
        exact ih used seen m hinv
      · have hp : w ∉ (alFind idx.chars ch).getD [] :=
          fun hp => hs ((hinv ch hp).mp hu)
        simp only [specCharHits, if_neg hs]
        rw [if_neg hp]
        simp only [Nat.zero_add]
        apply ih
        intro c hc2
        by_cases hcch : c = ch
        · subst hcch
          exact absurd hc2 hp
        · simp only [List.mem_cons]
          constructor
          · intro h1
            exact Or.inr ((hinv c hc2).mp h1)
          · rintro (h1 | h1)
            · exact absurd h1 hcch
            · exact (hinv c hc2).mpr h1
    · cases hc : alFind idx.chars ch with
      | none =>
        have hstep : charStep idx (used, m) ch = (used, m) := by
          simp [charStep, hu, hc]
        rw [hstep]
        have hp : w ∉ (alFind idx.chars ch).getD [] := by simp [hc]
        by_cases hs : ch ∈ seen
        · simp only [specCharHits, if_pos hs]
          exact ih used seen m hinv
        · simp only [specCharHits, if_neg hs]
          rw [if_neg hp]
          simp only [Nat.zero_add]
          apply ih
          intro c hc2
          by_cases hcch : c = ch
          · subst hcch
            exact absurd hc2 hp
          · simp only [List.mem_cons]
            constructor
            · intro h1
              exact Or.inr ((hinv c hc2).mp h1)
            · rintro (h1 | h1)
              · exact absurd h1 hcch
              · exact (hinv c hc2).mpr h1
      | some snips =>
        have hsnd : snips.Nodup := hnd (ch, snips) (alFind_mem hc)
        have hstep : charStep idx (used, m) ch
            = (if snips = [] then used else setAdd used ch,
               snips.foldl (fun m2 s => alBump m2 s) m) := by
          simp [charStep, hu, hc, innerCharFold]
        rw [hstep]
        have hmw : alFind (snips.foldl (fun m2 s => alBump m2 s) m) w
            = bumpVal (alFind m w) (snips.countP (fun s => decide (s = w))) :=
          count_foldl_alBump snips m w
        have hcnt := nodup_countP_eq hsnd w
        by_cases hs : ch ∈ seen
        · have hp : w ∉ snips := by
            intro hw
            exact hu ((hinv ch (by simpa [hc] using hw)).mpr hs)
          have hinv2 : ∀ c, w ∈ (alFind idx.chars c).getD [] →
              (c ∈ (if snips = [] then used else setAdd used ch) ↔ c ∈ seen) := by
            intro c hc2
            by_cases hcch : c = ch
            · subst hcch
              have : w ∈ snips := by simpa [hc] using hc2
              exact absurd this hp
            · by_cases hne : snips = []
              · simpa [hne] using hinv c hc2
              · rw [if_neg hne]
                constructor
                · intro h1
                  rcases (setAdd_mem used c ch).mp h1 with h2 | h2
                  · exact (hinv c hc2).mp h2
                  · exact absurd h2 hcch
                · intro h1
                  exact (setAdd_mem used c ch).mpr (Or.inl ((hinv c hc2).mpr h1))
          simp only [specCharHits, if_pos hs]
          rw [ih _ seen _ hinv2, hmw, hcnt, if_neg hp, bumpVal_zero]
        · have hinv2 : ∀ c, w ∈ (alFind idx.chars c).getD [] →
              (c ∈ (if snips = [] then used else setAdd used ch) ↔
                c ∈ ch :: seen) := by
            intro c hc2
            by_cases hcch : c = ch
            · subst hcch
              have hw : w ∈ snips := by simpa [hc] using hc2
              have hne : snips ≠ [] := by
                intro he
                rw [he] at hw
                simp at hw
              simp [hne, (setAdd_mem used c c).mpr (Or.inr rfl)]
            · constructor
              · intro h1
                have h3 : c ∈ used := by
                  by_cases hne : snips = []
                  · simpa [hne] using h1
                  · rcases (setAdd_mem used c ch).mp (by simpa [hne] using h1)
                        with h2 | h2
                    · exact h2
                    · exact absurd h2 hcch
                exact List.mem_cons_of_mem _ ((hinv c hc2).mp h3)
              · intro h1
                rcases List.mem_cons.mp h1 with h2 | h2
                · exact absurd h2 hcch
                · have h3 : c ∈ used := (hinv c hc2).mpr h2
                  by_cases hne : snips = [] <;> simp [hne, setAdd_mem, h3]
          simp only [specCharHits, if_neg hs]
          rw [ih _ (ch :: seen) _ hinv2, hmw, bumpVal_bumpVal, hcnt]
          congr 1
          simp [hc]

theorem charCounts_eq {idx : SnippetIndex} (hnd : CharSetsNodup idx)
    (words : List (List Char)) (w : List Char) :
    alFind (charCounts idx words) w
      = (if specCharHits idx w [] words.flatten = 0 then none
         else some (specCharHits idx w [] words.flatten)) := by
  have hfold : words.foldl (fun acc word => word.foldl (charStep idx) acc)
        ([], []) = words.flatten.foldl (charStep idx) ([], []) :=
    (List.foldl_flatten (charStep idx) ([], []) words).symm
  rw [charCounts, hfold, charFold_count hnd w words.flatten [] [] []
    (by intro ch h; simp)]
  simp [alFind, bumpVal]

/-! ### Ranking (stable ascending sort) lemmas -/

theorem insertAsc_perm (l : List (List Char × Nat)) (p : List Char × Nat) :
    (insertAsc l p).Perm (p :: l) := by
  induction l with
  | nil => simp [insertAsc]
  | cons q rest ih =>
    unfold insertAsc
    split
    · exact (ih.cons q).trans (List.Perm.swap p q rest)
    · exact List.Perm.refl _

theorem mem_insertAsc {l : List (List Char × Nat)} {p x : List Char × Nat} :
    x ∈ insertAsc l p ↔ x = p ∨ x ∈ l := by
  have h := (insertAsc_perm l p).mem_iff (a := x)
  simpa using h

theorem insertAsc_pairwise {l : List (List Char × Nat)}
    (h : l.Pairwise (fun a b => a.2 ≤ b.2)) (p : List Char × Nat) :
    (insertAsc l p).Pairwise (fun a b => a.2 ≤ b.2) := by
  induction l with
  | nil => simp [insertAsc]
  | cons q rest ih =>
    rcases List.pairwise_cons.mp h with ⟨hq, hrest⟩
    unfold insertAsc
    split
    · rename_i hle
      refine List.pairwise_cons.mpr ⟨?_, ih hrest⟩
      intro x hx
      rcases mem_insertAsc.mp hx with rfl | hx2
      · exact hle
      · exact hq x hx2
    · rename_i hgt
      have hpq : p.2 ≤ q.2 := Nat.le_of_lt (Nat.lt_of_not_le hgt)
      refine List.pairwise_cons.mpr ⟨?_, h⟩
      intro x hx
      rcases List.mem_cons.mp hx with rfl | hx2
      · exact hpq
      · exact Nat.le_trans hpq (hq x hx2)

theorem sortedPairs_perm (m : List (List Char × Nat)) :
    (sortedPairs m).Perm m := by
  suffices h : ∀ (l acc : List (List Char × Nat)),
      (l.foldl insertAsc acc).Perm (acc ++ l) by
    simpa using h m []
  intro l
  induction l with
  | nil => intro acc; simp
  | cons p rest ih =>
    intro acc
    simp only [List.foldl_cons]
    refine (ih _).trans ?_
    refine (List.Perm.append_right rest (insertAsc_perm acc p)).trans ?_
    exact List.perm_middle.symm

theorem sortedPairs_pairwise (m : List (List Char × Nat)) :
    (sortedPairs m).Pairwise (fun a b => a.2 ≤ b.2) := by
  suffices h : ∀ (l acc : List (List Char × Nat)),
      acc.Pairwise (fun a b => a.2 ≤ b.2) →
      (l.foldl insertAsc acc).Pairwise (fun a b => a.2 ≤ b.2) from
    h m [] (by simp)
  intro l
  induction l with
  | nil => intro acc h; simpa using h
  | cons p rest ih =>
    intro acc h
    exact ih _ (insertAsc_pairwise h p)

/-! ### Index construction soundness -/

theorem soundSets_mapSetAdd {κ : Type} [DecidableEq κ] {P : List Char → Prop}
    {m : List (κ × List (List Char))} (hm : SoundSets P m) {v : List Char}
    (hv : P v) (k : κ) : SoundSets P (mapSetAdd m k v) := by
  intro t s hfind w hw
  unfold mapSetAdd at hfind
  cases h : alFind m k with
  | some s0 =>
    rw [h, alFind_alInsert] at hfind
    by_cases e : k = t
    · rw [if_pos e] at hfind
      cases hfind
      rcases (setAdd_mem s0 w v).mp hw with h2 | rfl
      · exact hm k s0 h w h2
      · exact hv
    · rw [if_neg e] at hfind
      exact hm t s hfind w hw
  | none =>
    rw [h, alFind_append] at hfind
    cases h2 : alFind m t with
    | some x =>
      rw [h2] at hfind
      simp only [Option.some.injEq] at hfind
      subst hfind
      exact hm t x h2 w hw
    | none =>
      rw [h2] at hfind
      by_cases e : k = t
      · rw [if_pos e] at hfind
        simp only [Option.some.injEq] at hfind
        subst hfind
        rcases List.mem_singleton.mp hw with rfl
        exact hv
      · rw [if_neg e] at hfind
        simp at hfind

theorem soundSets_foldl {κ : Type} [DecidableEq κ] {P : List Char → Prop}
    {v : List Char} (hv : P v) (l : List κ) :
    ∀ {m : List (κ × List (List Char))}, SoundSets P m →
      SoundSets P (l.foldl (fun m2 t => mapSetAdd m2 t v) m) := by
  induction l with
  | nil => intro m hm; exact hm
  | cons t rest ih => intro m hm; exact ih (soundSets_mapSetAdd hm hv t)

theorem buildStep_ok {idx : SnippetIndex} {word : List Char}
    {data : EntryData} {idx2 : SnippetIndex}
    (h : buildStep idx word data = .ok idx2) :
    idx2.tags
        = data.tags.foldl (fun m t => mapSetAdd m t (pyLower word)) idx.tags ∧
    idx2.chars
        = data.chars.foldl (fun m c => mapSetAdd m c (pyLower word)) idx.chars := by
  simp only [buildStep] at h
  by_cases hn : data.name = []
  · simp [hn] at h
  · rw [if_neg hn] at h
    simp only [Except.ok.injEq] at h
    subst h
    exact ⟨rfl, rfl⟩

theorem buildFrom_sound {P : List Char → Prop} :
    ∀ (rest : Dict) (idx idx' : SnippetIndex),
      buildFrom idx rest = .ok idx' →
      SoundSets P idx.tags → SoundSets P idx.chars →
      (∀ p ∈ rest, P (pyLower p.1)) →
      SoundSets P idx'.tags ∧ SoundSets P idx'.chars := by
  intro rest
  induction rest with
  | nil =>
    intro idx idx' h ht hc _
    simp only [buildFrom, Except.ok.injEq] at h
    subst h
    exact ⟨ht, hc⟩
  | cons p rest2 ih =>
    obtain ⟨word, data⟩ := p
    intro idx idx' h ht hc hall
    simp only [buildFrom] at h
    cases hb : buildStep idx word data with
    | error e => simp [hb] at h
    | ok idx2 =>
      rw [hb] at h
      obtain ⟨htags, hchars⟩ := buildStep_ok hb
      have hP : P (pyLower word) := hall (word, data) (List.mem_cons_self _ _)
      refine ih idx2 idx' h ?_ ?_ ?_
      · rw [htags]
        exact soundSets_foldl hP data.tags ht
      · rw [hchars]
        exact soundSets_foldl hP data.chars hc
      · intro q hq
        exact hall q (List.mem_cons_of_mem _ hq)

/-! ### Cursor arithmetic -/

theorem int_pred_emod (s n : Nat) (hn : 0 < n) :
    (((s : Int) - 1) % (n : Int)).toNat = (s + n - 1) % n := by
  have h1 : ((s : Int) - 1) % (n : Int)
      = (((s : Int) - 1) + (n : Int) * 1) % (n : Int) :=
    (Int.add_mul_emod_self_left ((s : Int) - 1) (n : Int) 1).symm
  have h2 : ((s : Int) - 1) + (n : Int) * 1 = ((s + n - 1 : Nat) : Int) := by
    omega
  rw [h1, h2, ← Int.natCast_mod, Int.toNat_natCast]

/-! ### Branch equations of the resolver -/

theorem update_text_blank {idx : SnippetIndex} {raw : List Char}
    (h : pyStrip raw = []) : update_text idx raw = clearedState := by
  simp [update_text, h]

theorem update_text_exact {idx : SnippetIndex} {raw w : List Char}
    (h0 : pyStrip raw ≠ [])
    (h1 : alFind idx.lowercase_snippets (pyLower raw) = some w) :
    update_text idx raw
      = { clearedState with
          matches_list := [if leadingUpper raw then pyUpper w else w],
          matches_shift := [pyUpper w] } := by
  simp [update_text, h0, h1]

theorem update_text_name {idx : SnippetIndex} {raw w : List Char}
    (h0 : pyStrip raw ≠ [])
    (h1 : alFind idx.lowercase_snippets (pyLower raw) = none)
    (h2 : alFind idx.lowercase_names (pyLower raw) = some w) :
    update_text idx raw
      = { clearedState with
          matches_list := [if leadingUpper raw then pyUpper w else w],
          matches_shift := [pyUpper w] } := by
  simp [update_text, h0, h1, h2]

theorem update_text_tag {idx : SnippetIndex} {raw : List Char}
    (h0 : pyStrip raw ≠ [])
    (h1 : alFind idx.lowercase_snippets (pyLower raw) = none)
    (h2 : alFind idx.lowercase_names (pyLower raw) = none)
    (h3 : tagCounts idx (pySplit (pyLower raw)) ≠ []) :
    update_text idx raw
      = { clearedState with
          matches_list :=
            (rankKeys (tagCounts idx (pySplit (pyLower raw)))).map
              (adaptCase (leadingUpper raw) (pyIslower raw)),
          matches_shift :=
            (rankKeys (tagCounts idx (pySplit (pyLower raw)))).map pyUpper,
          tag_matches := tagCounts idx (pySplit (pyLower raw)) } := by
  simp [update_text, h0, h1, h2, h3]

theorem update_text_char {idx : SnippetIndex} {raw : List Char}
    (h0 : pyStrip raw ≠ [])
    (h1 : alFind idx.lowercase_snippets (pyLower raw) = none)
    (h2 : alFind idx.lowercase_names (pyLower raw) = none)
    (h3 : tagCounts idx (pySplit (pyLower raw)) = [])
    (h4 : charCounts idx (pySplit (pyLower raw)) ≠ []) :
    update_text idx raw
      = { clearedState with
          matches_list :=
            (rankKeys (charCounts idx (pySplit (pyLower raw)))).map
              (adaptCase (leadingUpper raw) (pyIslower raw)),
          matches_shift :=
            (rankKeys (charCounts idx (pySplit (pyLower raw)))).map pyUpper,
          char_matches := charCounts idx (pySplit (pyLower raw)) } := by
  simp [update_text, h0, h1, h2, h3, h4]

theorem update_text_nomatch {idx : SnippetIndex} {raw : List Char}
    (h0 : pyStrip raw ≠ [])
    (h1 : alFind idx.lowercase_snippets (pyLower raw) = none)
    (h2 : alFind idx.lowercase_names (pyLower raw) = none)
    (h3 : tagCounts idx (pySplit (pyLower raw)) = [])
    (h4 : charCounts idx (pySplit (pyLower raw)) = []) :
    update_text idx raw = clearedState := by
  simp [update_text, h0, h1, h2, h3, h4]

/-! ### Claim theorems -/

/-- Claim C1: calling `submit` with an empty candidate list does not return a
sentinel or an explicit rejection — the unguarded `self.matches[self.selection]`
raises Python's `IndexError` (modelled as the `Except` error), which no caller
handles before the top-level catch-all.  Evaluated at a concrete no-match
input; the candidate list is indeed empty (no stale candidate is returned,
since `update_text` clears the state first). -/
theorem c1_submit_empty_index_error :
    (update_text (builtIndex piDict) (lc "q")).matches_list = [] ∧
    submit (update_text (builtIndex piDict) (lc "q")) false
        = .error .indexError ∧
    submit (update_text (builtIndex piDict) (lc "q")) true
        = .error .indexError :=
  ⟨rfl, rfl, rfl⟩

/-- Claim C2: the exact-match strategies do NOT look up the lower-cased
trimmed input: line 190 of the source rebinds `input_text` to
`self.input_text.lower()`, discarding the stripped value.  For the raw input
`" pi"` over a dictionary containing `pi`, the trimmed key `"pi"` would hit
`exact_index`, but the key actually used is `" pi"`, which misses, and the
resolver produces no candidates at all. -/
theorem c2_lookup_uses_untrimmed_input :
    pyStrip (lc " pi") = lc "pi" ∧
    alFind (builtIndex piDict).lowercase_snippets
        (pyLower (pyStrip (lc " pi"))) = some (lc "pi") ∧
    pyLower (lc " pi") = lc " pi" ∧
    alFind (builtIndex piDict).lowercase_snippets (pyLower (lc " pi"))
        = none ∧
    (update_text (builtIndex piDict) (lc " pi")).matches_list = [] := by
  decide

/-- Claim C3, counterexample: case adaptation is NOT identical across
strategies.  With the single entry `Pi` and the all-lowercase input `"pi"`,
the exact-literal strategy fires; the claim's uniform rule demands the
primary form `lowercase("Pi") = "pi"`, but the code returns `"Pi"` unchanged
(the exact branches have no all-lowercase case). -/
theorem c3_counterexample :
    leadingUpper (lc "pi") = false ∧
    pyIslower (lc "pi") = true ∧
    (update_text (builtIndex piCapDict) (lc "pi")).matches_list = [lc "Pi"] ∧
    adaptCase (leadingUpper (lc "pi")) (pyIslower (lc "pi")) (lc "Pi")
        = lc "pi" ∧
    (update_text (builtIndex piCapDict) (lc "pi")).matches_list
        ≠ [adaptCase (leadingUpper (lc "pi")) (pyIslower (lc "pi")) (lc "Pi")] := by
  decide

/-- Claim C3 (amended): the shift form is `uppercase(c)` for every candidate
of every strategy.  For tag- and character-strategy candidates the primary
form follows the three-way rule (`adaptCase`): uppercase when the raw input's
first character is uppercase, else lowercase when the raw input is
all-lowercase, else the candidate unchanged.  For exact-literal and
exact-name candidates the all-lowercase branch is absent: the primary form is
`uppercase(c)` when the raw input leads with an uppercase letter and
otherwise `c` exactly as stored. -/
theorem c3_amended_case_adaptation :
    ∀ (idx : SnippetIndex) (raw : List Char),
      (∀ w, pyStrip raw ≠ [] →
        alFind idx.lowercase_snippets (pyLower raw) = some w →
          (update_text idx raw).matches_shift = [pyUpper w] ∧
          (update_text idx raw).matches_list
            = [if leadingUpper raw then pyUpper w else w]) ∧
      (∀ w, pyStrip raw ≠ [] →
        alFind idx.lowercase_snippets (pyLower raw) = none →
        alFind idx.lowercase_names (pyLower raw) = some w →
          (update_text idx raw).matches_shift = [pyUpper w] ∧
          (update_text idx raw).matches_list
            = [if leadingUpper raw then pyUpper w else w]) ∧
      (pyStrip raw ≠ [] →
        alFind idx.lowercase_snippets (pyLower raw) = none →
        alFind idx.lowercase_names (pyLower raw) = none →
        tagCounts idx (pySplit (pyLower raw)) ≠ [] →
          (update_text idx raw).matches_shift
            = (rankKeys (tagCounts idx (pySplit (pyLower raw)))).map pyUpper ∧
          (update_text idx raw).matches_list
            = (rankKeys (tagCounts idx (pySplit (pyLower raw)))).map
                (adaptCase (leadingUpper raw) (pyIslower raw))) ∧
      (pyStrip raw ≠ [] →
        alFind idx.lowercase_snippets (pyLower raw) = none →
        alFind idx.lowercase_names (pyLower raw) = none →
        tagCounts idx (pySplit (pyLower raw)) = [] →
        charCounts idx (pySplit (pyLower raw)) ≠ [] →
          (update_text idx raw).matches_shift
            = (rankKeys (charCounts idx (pySplit (pyLower raw)))).map pyUpper ∧
          (update_text idx raw).matches_list
            = (rankKeys (charCounts idx (pySplit (pyLower raw)))).map
                (adaptCase (leadingUpper raw) (pyIslower raw))) := by
  intro idx raw
  refine ⟨?_, ?_, ?_, ?_⟩
  · intro w h0 h1
    rw [update_text_exact h0 h1]
    exact ⟨rfl, rfl⟩
  · intro w h0 h1 h2
    rw [update_text_name h0 h1 h2]
    exact ⟨rfl, rfl⟩
  · intro h0 h1 h2 h3
    rw [update_text_tag h0 h1 h2 h3]
    exact ⟨rfl, rfl⟩
  · intro h0 h1 h2 h3 h4
    rw [update_text_char h0 h1 h2 h3 h4]
    exact ⟨rfl, rfl⟩

/-- Claim C3 witness: the amended exact-literal adaptation evaluated at entry
`Pi` with input `"pi"`. -/
theorem c3_amended_witness :
    (update_text (builtIndex piCapDict) (lc "pi")).matches_shift
        = [pyUpper (lc "Pi")] ∧
    (update_text (builtIndex piCapDict) (lc "pi")).matches_list
        = [if leadingUpper (lc "pi") then pyUpper (lc "Pi") else lc "Pi"] :=
  (c3_amended_case_adaptation (builtIndex piCapDict) (lc "pi")).1 (lc "Pi")
    (by decide) (by decide)

/-- Claim C4: referential integrity of the built index — every word stored in
any tag set or char set of a successfully built index is the (lowercased)
canonical word of some entry of the dictionary it was built from. -/
theorem c4_referential_integrity :
    ∀ (d : Dict) (idx : SnippetIndex), build_dictionary d = .ok idx →
      (∀ t s, alFind idx.tags t = some s → ∀ w ∈ s, InStore d w) ∧
      (∀ c s, alFind idx.chars c = some s → ∀ w ∈ s, InStore d w) := by
  intro d idx h
  refine buildFrom_sound d emptyIndex idx h ?_ ?_ ?_
  · intro t s hf
    simp [alFind, emptyIndex] at hf
  · intro t s hf
    simp [alFind, emptyIndex] at hf
  · intro p hp
    exact ⟨p, hp, rfl⟩

/-- Claim C4 witness: the word `b` found in the built tag set for `x` of the
two-entry dictionary is in that dictionary's Entry Store. -/
theorem c4_witness : InStore abDict (lc "b") :=
  (c4_referential_integrity abDict (builtIndex abDict) rfl).1 (lc "x")
    [lc "a", lc "b"] rfl (lc "b") (by decide)

/-- Claim C5: the four strategies run in the fixed order exact-literal,
exact-name, tag, character; the first that yields a candidate determines the
result and short-circuits the rest, and if all four fail the result is
empty. -/
theorem c5_strategy_priority :
    ∀ (idx : SnippetIndex) (raw : List Char), pyStrip raw ≠ [] →
      (∀ w, alFind idx.lowercase_snippets (pyLower raw) = some w →
          (update_text idx raw).matches_list
            = [if leadingUpper raw then pyUpper w else w]) ∧
      (alFind idx.lowercase_snippets (pyLower raw) = none →
        ∀ w, alFind idx.lowercase_names (pyLower raw) = some w →
          (update_text idx raw).matches_list
            = [if leadingUpper raw then pyUpper w else w]) ∧
      (alFind idx.lowercase_snippets (pyLower raw) = none →
        alFind idx.lowercase_names (pyLower raw) = none →
        tagCounts idx (pySplit (pyLower raw)) ≠ [] →
          (update_text idx raw).matches_list
            = (rankKeys (tagCounts idx (pySplit (pyLower raw)))).map
                (adaptCase (leadingUpper raw) (pyIslower raw))) ∧
      (alFind idx.lowercase_snippets (pyLower raw) = none →
        alFind idx.lowercase_names (pyLower raw) = none →
        tagCounts idx (pySplit (pyLower raw)) = [] →
        charCounts idx (pySplit (pyLower raw)) ≠ [] →
          (update_text idx raw).matches_list
            = (rankKeys (charCounts idx (pySplit (pyLower raw)))).map
                (adaptCase (leadingUpper raw) (pyIslower raw))) ∧
      (alFind idx.lowercase_snippets (pyLower raw) = none →
        alFind idx.lowercase_names (pyLower raw) = none →
        tagCounts idx (pySplit (pyLower raw)) = [] →
        charCounts idx (pySplit (pyLower raw)) = [] →
          (update_text idx raw).matches_list = []) := by
  intro idx raw h0
  refine ⟨?_, ?_, ?_, ?_, ?_⟩
  · intro w h1
    rw [update_text_exact h0 h1]
  · intro h1 w h2
    rw [update_text_name h0 h1 h2]
  · intro h1 h2 h3
    rw [update_text_tag h0 h1 h2 h3]
  · intro h1 h2 h3 h4
    rw [update_text_char h0 h1 h2 h3 h4]
  · intro h1 h2 h3 h4
    rw [update_text_nomatch h0 h1 h2 h3 h4]
    rfl

/-- Claim C5 witness: on `allStratDict` the input `"pi"` is satisfiable by
all four strategies (exact word, name, tag `pi`, chars `p`,`i`), and the
result is the exact-literal candidate alone. -/
theorem c5_witness :
    (update_text (builtIndex allStratDict) (lc "pi")).matches_list
        = [if leadingUpper (lc "pi") then pyUpper (lc "pi") else lc "pi"] ∧
    alFind (builtIndex allStratDict).lowercase_names (pyLower (lc "pi"))
        = some (lc "pi") ∧
    tagCounts (builtIndex allStratDict) (pySplit (pyLower (lc "pi"))) ≠ [] ∧
    charCounts (builtIndex allStratDict) (pySplit (pyLower (lc "pi"))) ≠ [] :=
  ⟨(c5_strategy_priority (builtIndex allStratDict) (lc "pi") (by decide)).1
      (lc "pi") (by decide),
    by decide, by decide, by decide⟩

/-- Claim C6, counterexample: the tag counter is incremented once per word
OCCURRENCE, not once per distinct word.  With entry `b{tags:[x]}` (inside
`abDict`) and input `"x x"` (one distinct word), the code's counter for `b`
is 2, where the claim's distinct-word rule (`specTagCountsDistinct`, stated
from the spec's words) gives 1. -/
theorem c6_counterexample :
    alFind (tagCounts (builtIndex abDict) (pySplit (pyLower (lc "x x"))))
        (lc "b") = some 2 ∧
    (pySplit (pyLower (lc "x x"))).dedup = [lc "x"] ∧
    alFind (specTagCountsDistinct (builtIndex abDict)
        (pySplit (pyLower (lc "x x")))) (lc "b") = some 1 ∧
    tagCounts (builtIndex abDict) (pySplit (pyLower (lc "x x")))
        ≠ specTagCountsDistinct (builtIndex abDict)
            (pySplit (pyLower (lc "x x"))) := by
  decide

/-- Claim C6 (amended): each OCCURRENCE of a whitespace-separated word of the
lowered input increments the counter of every entry declaring that word as a
tag (one increment per occurrence per entry); the result is all counted
entries, stably sorted ascending by counter value, truncated to the first
MAX_MATCHES.  With entries `a{tags:[x,y]}`, `b{tags:[x]}` and input `"x y"`,
`a` scores 2, `b` scores 1, and `b` precedes `a`. -/
theorem c6_amended_tag_counting :
    (∀ (idx : SnippetIndex) (words : List (List Char)) (w : List Char),
        TagSetsNodup idx →
        alFind (tagCounts idx words) w
          = (if words.countP
                (fun t => decide (w ∈ (alFind idx.tags t).getD [])) = 0
             then none
             else some (words.countP
                (fun t => decide (w ∈ (alFind idx.tags t).getD []))))) ∧
    (∀ m : List (List Char × Nat), (sortedPairs m).Perm m) ∧
    (∀ m : List (List Char × Nat),
        ((sortedPairs m).map (fun p => p.2)).Pairwise (· ≤ ·)) ∧
    (∀ m : List (List Char × Nat), (rankKeys m).length ≤ MAX_MATCHES) ∧
    (alFind (tagCounts (builtIndex abDict) (pySplit (pyLower (lc "x y"))))
        (lc "a") = some 2 ∧
      alFind (tagCounts (builtIndex abDict) (pySplit (pyLower (lc "x y"))))
        (lc "b") = some 1 ∧
      (update_text (builtIndex abDict) (lc "x y")).matches_list
        = [lc "b", lc "a"]) := by
  refine ⟨fun idx words w hnd => tagCounts_eq hnd words w,
    sortedPairs_perm, ?_, ?_, by decide, by decide, by decide⟩
  · intro m
    exact List.Pairwise.map (fun p : List Char × Nat => p.2) (fun a b h => h)
      (sortedPairs_pairwise m)
  · intro m
    exact List.length_take_le _ _

/-- Claim C6 witness: the amended counter equation evaluated at the
double-word input `"x x"`. -/
theorem c6_amended_witness :
    alFind (tagCounts (builtIndex abDict) (pySplit (pyLower (lc "x x"))))
        (lc "b")
      = (if (pySplit (pyLower (lc "x x"))).countP
            (fun t => decide
              ((lc "b") ∈ (alFind (builtIndex abDict).tags t).getD [])) = 0
         then none
         else some ((pySplit (pyLower (lc "x x"))).countP
            (fun t => decide
              ((lc "b") ∈ (alFind (builtIndex abDict).tags t).getD [])))) :=
  c6_amended_tag_counting.1 (builtIndex abDict)
    (pySplit (pyLower (lc "x x"))) (lc "b") (by decide)

/-- Claim C7: each character of the input contributes to an entry's counter
at most once across the whole input — the counter equals the number of
first-occurrence character hits (`specCharHits`, stated from the spec's
consumed-set rule); with `a{chars:[a]}` and input `"aa aa"` the counter of
`a` is exactly 1. -/
theorem c7_char_consumption :
    (∀ (idx : SnippetIndex) (words : List (List Char)) (w : List Char),
        CharSetsNodup idx →
        alFind (charCounts idx words) w
          = (if specCharHits idx w [] words.flatten = 0 then none
             else some (specCharHits idx w [] words.flatten))) ∧
    (alFind (charCounts (builtIndex aCharDict)
        (pySplit (pyLower (lc "aa aa")))) (lc "a") = some 1 ∧
      specCharHits (builtIndex aCharDict) (lc "a") []
        (pySplit (pyLower (lc "aa aa"))).flatten = 1) :=
  ⟨fun idx words w hnd => charCounts_eq hnd words w, by decide, by decide⟩

/-- Claim C7 witness: the counter equation evaluated at the repeated-character
input `"aa aa"`. -/
theorem c7_witness :
    alFind (charCounts (builtIndex aCharDict)
        (pySplit (pyLower (lc "aa aa")))) (lc "a")
      = (if specCharHits (builtIndex aCharDict) (lc "a") []
            (pySplit (pyLower (lc "aa aa"))).flatten = 0
         then none
         else some (specCharHits (builtIndex aCharDict) (lc "a") []
            (pySplit (pyLower (lc "aa aa"))).flatten)) :=
  c7_char_consumption.1 (builtIndex aCharDict)
    (pySplit (pyLower (lc "aa aa"))) (lc "a") (by decide)

/-- Claim C8: cursor cycling is modular with wraparound and a no-op on an
empty candidate list (forward `(cursor+1) mod n`, backward
`(cursor-1+n) mod n`), and the resolver resets the cursor to 0 on every
edit. -/
theorem c8_cursor_cycling :
    (∀ st : ResState, st.matches_list = [] →
        cycle_forward st = st ∧ cycle_backward st = st) ∧
    (∀ st : ResState, st.matches_list ≠ [] →
        (cycle_forward st).selection
            = (st.selection + 1) % st.matches_list.length ∧
        (cycle_backward st).selection
            = (st.selection + st.matches_list.length - 1)
                % st.matches_list.length) ∧
    (∀ (idx : SnippetIndex) (raw : List Char),
        (update_text idx raw).selection = 0) := by
  refine ⟨?_, ?_, ?_⟩
  · intro st h
    constructor <;> simp [cycle_forward, cycle_backward, h]
  · intro st h
    have hn : 0 < st.matches_list.length := List.length_pos.mpr h
    constructor
    · simp [cycle_forward, h]
    · simp only [cycle_backward, if_neg h]
      exact int_pred_emod st.selection st.matches_list.length hn
  · intro idx raw
    by_cases h0 : pyStrip raw = []
    · rw [update_text_blank h0]
      rfl
    · cases h1 : alFind idx.lowercase_snippets (pyLower raw) with
      | some w =>
        rw [update_text_exact h0 h1]
        rfl
      | none =>
        cases h2 : alFind idx.lowercase_names (pyLower raw) with
        | some w =>
          rw [update_text_name h0 h1 h2]
          rfl
        | none =>
          by_cases h3 : tagCounts idx (pySplit (pyLower raw)) = []
          · by_cases h4 : charCounts idx (pySplit (pyLower raw)) = []
            · rw [update_text_nomatch h0 h1 h2 h3 h4]
              rfl
            · rw [update_text_char h0 h1 h2 h3 h4]
              rfl
          · rw [update_text_tag h0 h1 h2 h3]
            rfl

/-- Claim C8 witness: with 3 candidates, forward from cursor 2 wraps to 0 and
backward from cursor 0 wraps to 2; resolving resets the cursor to 0. -/
theorem c8_witness :
    (cycle_forward (demoState 2)).selection = 0 ∧
    (cycle_backward (demoState 0)).selection = 2 ∧
    (update_text (builtIndex piDict) (lc "pi")).selection = 0 := by
  refine ⟨?_, ?_, c8_cursor_cycling.2.2 (builtIndex piDict) (lc "pi")⟩
  · rw [(c8_cursor_cycling.2.1 (demoState 2) (by decide)).1]
    decide
  · rw [(c8_cursor_cycling.2.1 (demoState 0) (by decide)).2]
    decide

/-- Claim C9: the resolver is total, and blank input (empty or
whitespace-only, i.e. empty after stripping) yields empty candidate lists as
ordinary data. -/
theorem c9_blank_input :
    ∀ (idx : SnippetIndex) (raw : List Char), pyStrip raw = [] →
      (update_text idx raw).matches_list = [] ∧
      (update_text idx raw).matches_shift = [] := by
  intro idx raw h
  rw [update_text_blank h]
  exact ⟨rfl, rfl⟩

/-- Claim C9 witness: `resolve("")` and `resolve("   ")` both yield empty
candidates and empty shift candidates. -/
theorem c9_witness :
    ((update_text (builtIndex piDict) (lc "")).matches_list = [] ∧
      (update_text (builtIndex piDict) (lc "")).matches_shift = []) ∧
    ((update_text (builtIndex piDict) (lc "   ")).matches_list = [] ∧
      (update_text (builtIndex piDict) (lc "   ")).matches_shift = []) :=
  ⟨c9_blank_input (builtIndex piDict) (lc "") (by decide),
    c9_blank_input (builtIndex piDict) (lc "   ") (by decide)⟩

/-- Claim C10: when the stripped input is non-empty (the only situation in
which `update_text` proceeds past the blank guard to read
`self.input_text[0]`), the raw input itself is non-empty, so the position-0
read is in range and the casing classification reads the actual first
character. -/
theorem c10_classification_guard :
    ∀ raw : List Char, pyStrip raw ≠ [] →
      0 < raw.length ∧
        ∃ c rest, raw = c :: rest ∧ leadingUpper raw = c.isUpper := by
  intro raw h
  cases raw with
  | nil => exact absurd rfl h
  | cons c rest => exact ⟨Nat.succ_pos _, c, rest, rfl, rfl⟩

/-- Claim C10 witness: evaluated at the whitespace-led input `" Pi"`. -/
theorem c10_witness :
    0 < (lc " Pi").length ∧
      ∃ c rest, lc " Pi" = c :: rest ∧
        leadingUpper (lc " Pi") = c.isUpper :=
  c10_classification_guard (lc " Pi") (by decide)
